import Mathlib

/-!
Verification of the dependency-driven evaluation engine of
src/Python/lbftd/evalGibbs.py (function evalSolutionGibbs and its helpers).

The embedding is a shallow one:

* numpy arrays of rationals are modelled by the nested type `Arr`;
* the evaluation point set PTM is either a tuple of scalars (one per spline
  dimension) or a sequence of per-dimension value arrays (`PTMInput`);
* the external spline evaluator `mlbspline.eval.evalMultivarSpline` (whose
  source is not under src/) is a parameter `E` of the engine;
* the variable registry `lbftd.statevars` (not under src/) is external input:
  a thermodynamic-variable descriptor is a `TDV` record carrying the same
  requirement flags the source reads (`reqDerivs`, `reqGrid`, `reqMWv`,
  `reqMWu`, `reqTDV`, `reqSpline`, `reqPTM`, `reqF`, `reqM`, `req0M`) and a
  pure computation function `calcFn`, and the derivative registry
  `statevars.derivatives` is a parameter `dreg`;
* Python exceptions become the `GibbsError` type (one constructor per raise
  site of the modelled code) and the result of `evalSolutionGibbs` is the
  `EvalResult` type, whose `diverge` constructor models the case in which
  the Python while loop never terminates;
* the in-place mutation of the caller's PTM argument performed by `_wrapPTM`
  (assignment into the caller's own outer object array) is modelled by
  explicit state passing: `_wrapPTM` returns both the wrapped point set and
  the content of the caller's argument after the call.

`evalSolutionGibbs` here receives the tdv spec already expanded to its
dependency closure: the expansion (`statevars.expandTDVSpec`) lives in
statevars.py, which is not under src/; all properties below quantify over
the expanded closure.  The warning-only paths of the source (the memory
footprint check `_checkMemReq`, the extrapolation warning when
failOnExtrapolate is false, and the NOTE print about added tdvs) do not
alter computed values and are not modelled as errors.
-/

namespace LBFTD

/-- Modelled from the spec: the dimension-index constants `iP`, `iT`, `iM` of
lbftd.statevars (not under src/).  The spec and the docstring of
evalSolutionGibbs fix the dimension order pressure, temperature, molality. -/
def iP : Nat := 0

/-- Modelled from the spec: temperature dimension index (see `iP`). -/
def iT : Nat := 1

/-- Modelled from the spec: molality dimension index (see `iP`). -/
def iM : Nat := 2

/-- Modelled from the spec: `statevars.defDer`, the default per-dimension
derivative order; the spec says derivative orders default to zero. -/
def defDer : Nat := 0

/-- A numpy ndarray of rationals: either a scalar or an array of subarrays. -/
inductive Arr where
  | scal (q : ℚ) : Arr
  | arr (elems : List Arr) : Arr
deriving Inhabited

mutual
/-- Decidable equality on arrays. -/
def arrDecEq : (a b : Arr) → Decidable (a = b)
  | .scal p, .scal q =>
    match decEq p q with
    | isTrue h => isTrue (by rw [h])
    | isFalse h => isFalse (by intro hh; cases hh; exact h rfl)
  | .scal _, .arr _ => isFalse (by intro h; cases h)
  | .arr _, .scal _ => isFalse (by intro h; cases h)
  | .arr l, .arr m =>
    match arrDecEqList l m with
    | isTrue h => isTrue (by rw [h])
    | isFalse h => isFalse (by intro hh; cases hh; exact h rfl)

/-- Decidable equality on lists of arrays. -/
def arrDecEqList : (l m : List Arr) → Decidable (l = m)
  | [], [] => isTrue rfl
  | [], _ :: _ => isFalse (by intro h; cases h)
  | _ :: _, [] => isFalse (by intro h; cases h)
  | a :: as, b :: bs =>
    match arrDecEq a b, arrDecEqList as bs with
    | isTrue h1, isTrue h2 => isTrue (by rw [h1, h2])
    | isFalse h1, _ => isFalse (by intro hh; cases hh; exact h1 rfl)
    | _, isFalse h2 => isFalse (by intro hh; cases hh; exact h2 rfl)
end

instance : DecidableEq Arr := arrDecEq

mutual
/-- Number of scalar elements of an array. -/
def arrSize : Arr → Nat
  | .scal _ => 1
  | .arr l => arrSizeList l

def arrSizeList : List Arr → Nat
  | [] => 0
  | a :: as => arrSize a + arrSizeList as
end

/-- Drop the first index along the given axis, as the numpy slicing
`v[slc]` with `slc[axis] = slice(1, None)` does in `_remove0M`. -/
def sliceAxis : Nat → Arr → Arr
  | 0, .scal q => .scal q
  | 0, .arr l => .arr (l.drop 1)
  | _ + 1, .scal q => .scal q
  | n + 1, .arr l => .arr (l.map (sliceAxis n))

/-- Shape check: `hasShape ns a` holds when `a` is a rectangular array whose
per-dimension extents are exactly `ns`. -/
def hasShape : List Nat → Arr → Bool
  | [], .scal _ => true
  | [], .arr _ => false
  | _ :: _, .scal _ => false
  | n :: ns, .arr l => l.length == n && l.all (hasShape ns)

/-- The B-spline descriptor: the knot sequences (gibbsSp['knots']) and the
per-dimension coefficient counts (gibbsSp['number']); the source takes the
dimension count as gibbsSp['number'].size. -/
structure Spline where
  knots : List (List ℚ)
  number : List Nat
deriving DecidableEq

/-- An entry of the derivative registry `statevars.derivatives` (not under
src/): a derivative name with its per-dimension orders `wrtP`, `wrtT`,
`wrtM` read by `_buildDerivDirective`. -/
structure DerivSpec where
  name : String
  wrtP : Nat
  wrtT : Nat
  wrtM : Nat
deriving DecidableEq

/-- The caller's PTM argument: either a single point given as one scalar per
dimension (the tuple case of the source, recognized there by the IndexError
raised by origPTM[iP][0]), or one value array per dimension. -/
inductive PTMInput where
  | point (vals : List ℚ) : PTMInput
  | grid (dims : List (List ℚ)) : PTMInput
deriving DecidableEq

/-- The argument dict built by `_buildEvalArgs`: one optional slot per
resource; a slot is `none` exactly when the corresponding key is absent from
the Python kwargs dict.  The slots for gPTM, MWv, MWu and f carry an inner
Option because the source can pass those resources with value None. -/
structure EvalArgs where
  derivs : Option (List (String × Arr))
  grid : Option (Option (List Arr))
  MWv : Option (Option ℚ)
  MWu : Option (Option ℚ)
  tdv : Option (List (String × Arr))
  spline : Option Spline
  ptm : Option (List (List ℚ))
  f : Option (Option (List ℚ))
deriving DecidableEq

/-- A thermodynamic-variable descriptor of the registry `statevars.statevars`
(external input to the engine): the requirement flags read by
evalSolutionGibbs, `_buildEvalArgs`, `_checkSplineAndTdvs`, `_checkUserInput`,
`_needs0M` and `getDerivatives`, plus the pure computation function.  The
parm* attribute names of the source are the Python kwargs names and carry no
information beyond the flags, so they are not modelled. -/
structure TDV where
  name : String
  reqDerivs : List String
  reqGrid : Bool
  reqMWv : Bool
  reqMWu : Bool
  reqTDV : List String
  reqSpline : Bool
  reqPTM : Bool
  reqF : Bool
  reqM : Bool
  req0M : Bool
  calcFn : EvalArgs → Arr

/-- The ValueError raise sites of the modelled code, one constructor each:
the two raises of `_checkSplineAndTdvs`, the two molecular-weight raises of
`_checkUserInput`, and its extrapolation raise. -/
inductive GibbsError where
  | incompatibleSpline (tdvNames : List String) : GibbsError
  | dimensionMismatch (tdvNames : List String) : GibbsError
  | missingMWv (tdvNames : List String) : GibbsError
  | missingMWu (tdvNames : List String) : GibbsError
  | extrapolation (dims : List Nat) : GibbsError
deriving DecidableEq

/-- Outcome of a call to evalSolutionGibbs: a raised error, divergence of the
scheduler while loop, or normal return.  `fields` are the instance attributes
of the returned ThermodynamicStates object (the computed variables; the PTM
attribute, a class attribute in the source, is `ptmOut`), `callerPTM` is the
content of the caller's PTM argument after the call (observing the in-place
mutation of `_wrapPTM`), and `trace` records each computation the scheduler
performed: the variable name with the argument set passed to its calcFn. -/
inductive EvalResult where
  | err (e : GibbsError) : EvalResult
  | diverge : EvalResult
  | ok (fields : List (String × Arr)) (ptmOut : PTMInput) (callerPTM : PTMInput)
      (trace : List (String × EvalArgs)) : EvalResult

/-- Python falsiness test `MWx == 0 or not MWx` used by `_checkUserInput`:
true for None and for zero. -/
def mwMissing : Option ℚ → Bool
  | none => true
  | some q => q == 0

/-- The pair (k[0], k[-1]) of a knot sequence, as in
knotranges = [(k[0], k[-1]) for k in gibbsSp['knots']]. -/
def knotRange (sp : Spline) (i : Nat) : ℚ × ℚ :=
  ((sp.knots.getD i []).headI, (sp.knots.getD i []).getLastD 0)

/-- ptmranges = [(d[0], d[-1]) if isinstance(d, Iterable) else (d, d) for d in PTM]. -/
def ptmRanges : PTMInput → List (ℚ × ℚ)
  | .point vals => vals.map (fun v => (v, v))
  | .grid dims => dims.map (fun d => (d.headI, d.getLastD 0))

/-- extrapolationDims = [i for i in range(0, dimCt) if hasValsOutsideKnotRange(...)]. -/
def extrapolationDims (sp : Spline) (dimCt : Nat) (ptm : PTMInput) : List Nat :=
  (List.range dimCt).filter (fun i =>
    let kr := knotRange sp i
    let pr := (ptmRanges ptm).getD i (0, 0)
    decide (pr.1 < kr.1 ∨ pr.2 > kr.2))

/-- `_checkSplineAndTdvs` of the source: the req0M / knot-range check, then
the 3-dimensionality check for reqF/reqM variables. -/
def _checkSplineAndTdvs (sp : Spline) (dimCt : Nat) (tdvSpec : List TDV) :
    Except GibbsError Unit :=
  let req0M := tdvSpec.filter (fun t => t.req0M)
  if dimCt = 3 ∧ ¬req0M.isEmpty ∧ (knotRange sp iM).1 ≠ 0 then
    .error (.incompatibleSpline (req0M.map (fun t => t.name)))
  else
    let reqM := tdvSpec.filter (fun t => t.reqF || t.reqM)
    if dimCt = 2 ∧ ¬reqM.isEmpty then
      .error (.dimensionMismatch ((reqM.map (fun t => t.name)).dedup))
    else .ok ()

/-- `_checkUserInput` of the source.  NOTE, faithful to the source: the
definition declares its molecular-weight parameters in the order
(..., PTM, MWu, MWv, ...) while its only caller `_checkInputs` passes them
positionally in the order (..., PTM, MWv, MWu, ...).  Hence inside this
function the binder named MWu holds the caller's solvent weight and the
binder named MWv holds the caller's solute weight, exactly as in the Python
code at lines 110 and 137 of evalGibbs.py. -/
def _checkUserInput (sp : Spline) (dimCt : Nat) (tdvSpec : List TDV) (ptm : PTMInput)
    (MWu MWv : Option ℚ) (failOnExtrapolate : Bool) : Except GibbsError Unit :=
  let reqMWv := tdvSpec.filter (fun t => t.reqMWv)
  if mwMissing MWv && !reqMWv.isEmpty then
    .error (.missingMWv (reqMWv.map (fun t => t.name)))
  else
    let reqMWu := tdvSpec.filter (fun t => t.reqMWu)
    if mwMissing MWu && !reqMWu.isEmpty then
      .error (.missingMWu (reqMWu.map (fun t => t.name)))
    else
      let ed := extrapolationDims sp dimCt ptm
      if !ed.isEmpty && failOnExtrapolate then
        .error (.extrapolation ed)
      else .ok ()

/-- `_checkInputs` of the source: spline/tdv compatibility, then user input.
The third step `_checkMemReq` only ever emits a warning (never an error) and
is therefore not modelled.  The arguments to `_checkUserInput` are passed
positionally as in the source, which is where the MWv/MWu swap happens. -/
def _checkInputs (sp : Spline) (dimCt : Nat) (tdvSpec : List TDV) (ptm : PTMInput)
    (MWv MWu : Option ℚ) (failOnExtrapolate : Bool) : Except GibbsError Unit :=
  match _checkSplineAndTdvs sp dimCt tdvSpec with
  | .error e => .error e
  | .ok _ => _checkUserInput sp dimCt tdvSpec ptm MWv MWu failOnExtrapolate

/-- `_needs0M`: dimCt == 3 and PTM[iM][0] != 0 and any tdv has req0M. -/
def _needs0M (dimCt : Nat) (ptm : List (List ℚ)) (tdvSpec : List TDV) : Bool :=
  dimCt == 3 && decide ((ptm.getD iM []).headI ≠ 0) && tdvSpec.any (fun t => t.req0M)

/-- `_wrapPTM` of the source.  The first component is the wrapped point set
(one value array per dimension, possibly with an introduced 0 molality); the
second component is the content of the caller's PTM argument after the call.
In the source the array case aliases the caller's object (PTM = origPTM), so
the in-place update PTM[iM] = np.insert(PTM[iM], 0, 0) is visible to the
caller; in the tuple case a fresh outer array is allocated (np.empty) and
the caller's tuple is untouched. -/
def _wrapPTM (origPTM : PTMInput) (dimCt : Nat) (tdvSpec : List TDV) :
    (List (List ℚ)) × PTMInput :=
  match origPTM with
  | .grid dims =>
    if _needs0M dimCt dims tdvSpec then
      let w := dims.set iM (0 :: dims.getD iM [])
      (w, .grid w)
    else (dims, .grid dims)
  | .point vals =>
    let dims := (List.range dimCt).map (fun i => [vals.getD i 0])
    if _needs0M dimCt dims tdvSpec then
      (dims.set iM (0 :: dims.getD iM []), .point vals)
    else (dims, .point vals)

/-- `_remove0M` of the source, acting on the instance attributes (the
computed variables) of the output object.  tdvout.PTM is a copy of the
caller's original PTM made by createThermodynamicStatesObj, and is not among
the sliced attributes (it is a class attribute, absent from vars(tdvout)). -/
def _remove0M (fields : List (String × Arr)) (origPTM : PTMInput)
    (wrappedPTM : List (List ℚ)) : List (String × Arr) :=
  if wrappedPTM.length = 3 ∧ (wrappedPTM.getD iM []).headI = 0 then
    let firstM : ℚ :=
      match origPTM with
      | .point vals => vals.getD iM 0
      | .grid dims => (dims.getD iM []).headI
    if firstM ≠ 0 then fields.map (fun pr => (pr.1, sliceAxis iM pr.2))
    else fields
  else fields

/-- `next(d for d in statevars.derivatives if d.name == dn)` of getDerivatives.
A name absent from the registry raises StopIteration in the source; that
case is not exercised here and is mapped to a zero-order entry. -/
def getDerivSpec (dreg : List DerivSpec) (dn : String) : DerivSpec :=
  (dreg.find? (fun d => d.name == dn)).getD ⟨dn, 0, 0, 0⟩

/-- `_buildDerivDirective`: a per-dimension derivative-order list, defaulted
to defDer and overridden per the truthy wrt* fields of the DerivSpec. -/
def _buildDerivDirective (ds : DerivSpec) (dimCt : Nat) : List Nat :=
  let out := List.replicate dimCt defDer
  let out := if ds.wrtP ≠ 0 then out.set iP ds.wrtP else out
  let out := if ds.wrtT ≠ 0 then out.set iT ds.wrtT else out
  if ds.wrtM ≠ 0 then out.set iM ds.wrtM else out

/-- `getDerivatives` of the source: the set of derivative names required by
the spec (a Python set: each distinct name once, modelled by dedup), with one
invocation of the external evaluator `E` per element.  The first component
is the derivatives object (name-to-array fields set by setattr); the second
component is the per-call record: one entry, the derivative name, for each
invocation of `E`. -/
def getDerivatives (E : Spline → List (List ℚ) → List Nat → Arr) (dreg : List DerivSpec)
    (gibbsSp : Spline) (ptm : List (List ℚ)) (dimCt : Nat) (tdvSpec : List TDV) :
    (List (String × Arr)) × List String :=
  let reqderivs := (tdvSpec.flatMap (fun t => t.reqDerivs)).dedup
  (reqderivs.map (fun rd =>
      (rd, E gibbsSp ptm (_buildDerivDirective (getDerivSpec dreg rd) dimCt))),
   reqderivs)

/-- Rectangular grid builder: the array whose element at index vector ix is
f ix, with per-dimension extents taken from dims. -/
def buildGrid : List (List ℚ) → (List Nat → ℚ) → Arr
  | [], f => .scal (f [])
  | d :: ds, f =>
    .arr ((List.range d.length).map (fun i => buildGrid ds (fun ix => f (i :: ix))))

/-- `_getGriddedPTM`: np.meshgrid(*PTM, indexing='ij') — for each dimension k
an array of the full grid shape whose entries broadcast PTM[k]. -/
def _getGriddedPTM (tdvSpec : List TDV) (ptm : List (List ℚ)) : List Arr :=
  if tdvSpec.any (fun t => t.reqGrid) then
    (List.range ptm.length).map (fun k =>
      buildGrid ptm (fun ix => (ptm.getD k []).getD (ix.getD k 0) 0))
  else []

/-- `_getVolSolventInVolSlnConversion`: f = 1 + MWu * PTM[iM], elementwise. -/
def _getVolSolventInVolSlnConversion (MWu : ℚ) (ptm : List (List ℚ)) : List ℚ :=
  (ptm.getD iM []).map (fun m => 1 + MWu * m)

/-- `_buildEvalArgs` of the source: the kwargs dict passed to a variable's
calcFn, with one key per requirement flag that is set. -/
def _buildEvalArgs (tdv : TDV) (derivs : List (String × Arr)) (ptm : List (List ℚ))
    (gPTM : Option (List Arr)) (MWv MWu : Option ℚ) (tdvout : List (String × Arr))
    (gibbsSp : Spline) (f : Option (List ℚ)) : EvalArgs :=
  ⟨if tdv.reqDerivs.isEmpty then none else some derivs,
   if tdv.reqGrid then some gPTM else none,
   if tdv.reqMWv then some MWv else none,
   if tdv.reqMWu then some MWu else none,
   if tdv.reqTDV.isEmpty then none else some tdvout,
   if tdv.reqSpline then some gibbsSp else none,
   if tdv.reqPTM then some ptm else none,
   if tdv.reqF then some f else none⟩

/-- The fixed resources threaded through the scheduler loop. -/
structure SchedCtx where
  derivs : List (String × Arr)
  wrapped : List (List ℚ)
  gPTM : Option (List Arr)
  MWv : Option ℚ
  MWu : Option ℚ
  spline : Spline
  f : Option (List ℚ)

/-- Python set add: completedTDVs.add(name). -/
def insertName (completed : List String) (n : String) : List String :=
  if n ∈ completed then completed else completed ++ [n]

/-- setattr(tdvout, name, v): replace the attribute if present, else add it. -/
def setF (fields : List (String × Arr)) (n : String) (v : Arr) : List (String × Arr) :=
  if fields.any (fun pr => pr.1 == n) then
    fields.map (fun pr => if pr.1 == n then (n, v) else pr)
  else fields ++ [(n, v)]

/-- One pass of the scheduler: tdvs not yet completed whose required tdvs are
all completed (t.name not in completedTDVs and (not t.reqTDV or not
t.reqTDV.difference(completedTDVs))). -/
def schedPass (tdvSpec : List TDV) (completed : List String) : List TDV :=
  tdvSpec.filter (fun t =>
    !decide (t.name ∈ completed) && t.reqTDV.all (fun d => decide (d ∈ completed)))

/-- The body of the scheduler's inner for loop for one tdv: build its args
from the current output object, compute, store, and mark completed. -/
def schedStep (ctx : SchedCtx)
    (st : List String × List (String × Arr) × List (String × EvalArgs)) (t : TDV) :
    List String × List (String × Arr) × List (String × EvalArgs) :=
  let args := _buildEvalArgs t ctx.derivs ctx.wrapped ctx.gPTM ctx.MWv ctx.MWu
      st.2.1 ctx.spline ctx.f
  (insertName st.1 t.name, setF st.2.1 t.name (t.calcFn args), st.2.2 ++ [(t.name, args)])

/-- The scheduler while loop (while len(completedTDVs) < len(tdvSpec)).  A
pass in which no tdv is eligible leaves the state unchanged, so the Python
loop then runs forever; this (and only this) is modelled by the result
`none`.  The fuel argument is a bound on the number of passes; since every
nonempty pass strictly grows the completed set, fuel = len(tdvSpec) + 1
passes are always enough, so `none` is returned exactly when the source
loops forever. -/
def schedLoop (ctx : SchedCtx) (tdvSpec : List TDV) :
    Nat → List String → List (String × Arr) → List (String × EvalArgs) →
    Option ((List (String × Arr)) × List (String × EvalArgs))
  | 0, completed, fields, trace =>
    if completed.length < tdvSpec.length then none else some (fields, trace)
  | fuel + 1, completed, fields, trace =>
    if completed.length < tdvSpec.length then
      let batch := schedPass tdvSpec completed
      if batch.isEmpty then none
      else
        let st := batch.foldl (schedStep ctx) (completed, fields, trace)
        schedLoop ctx tdvSpec fuel st.1 st.2.1 st.2.2
    else some (fields, trace)

/-- The fixed scheduler resources as evalSolutionGibbs builds them (lines
64 to 68 of the source): the derivatives object, the wrapped point set, the
gridded point set and the conversion factor (each only if some variable
requires it), the molecular weights and the spline. -/
def evalCtx (E : Spline → List (List ℚ) → List Nat → Arr) (dreg : List DerivSpec)
    (gibbsSp : Spline) (tdvSpec : List TDV) (MWv MWu : Option ℚ)
    (wrapped : List (List ℚ)) : SchedCtx :=
  ⟨(getDerivatives E dreg gibbsSp wrapped gibbsSp.number.length tdvSpec).1,
   wrapped,
   if tdvSpec.any (fun t => t.reqGrid) then some (_getGriddedPTM tdvSpec wrapped) else none,
   MWv, MWu, gibbsSp,
   if tdvSpec.any (fun t => t.reqF)
     then some (_getVolSolventInVolSlnConversion (MWu.getD 0) wrapped) else none⟩

/-- `evalSolutionGibbs` of the source, over the external spline evaluator E
and derivative registry dreg, for a tdv spec already expanded to its
dependency closure (the expansion lives in statevars.py, not under src/).
MWv and MWu are the caller-supplied molecular weights (None modelled as
`none`); the source computes f as 1 + MWu * PTM[iM], which with MWu = None
and a reqF variable would raise a TypeError — that inconsistent registry
case is not exercised by any property below and is mapped to MWu = 0. -/
def evalSolutionGibbs (E : Spline → List (List ℚ) → List Nat → Arr)
    (dreg : List DerivSpec) (gibbsSp : Spline) (ptm : PTMInput) (tdvSpec : List TDV)
    (MWv MWu : Option ℚ) (failOnExtrapolate : Bool) : EvalResult :=
  let dimCt := gibbsSp.number.length
  match _checkInputs gibbsSp dimCt tdvSpec ptm MWv MWu failOnExtrapolate with
  | .error e => .err e
  | .ok _ =>
    let wp := _wrapPTM ptm dimCt tdvSpec
    match schedLoop (evalCtx E dreg gibbsSp tdvSpec MWv MWu wp.1) tdvSpec
        (tdvSpec.length + 1) [] [] [] with
    | none => .diverge
    | some (fields, trace) => .ok (_remove0M fields ptm wp.1) ptm wp.2 trace

/-- Audit predicate for one argument set: each resource slot is present
exactly when the descriptor's corresponding flag declares it. -/
def presenceAudit (t : TDV) (a : EvalArgs) : Prop :=
  a.derivs.isSome = !t.reqDerivs.isEmpty ∧
  a.grid.isSome = t.reqGrid ∧
  a.MWv.isSome = t.reqMWv ∧
  a.MWu.isSome = t.reqMWu ∧
  a.tdv.isSome = !t.reqTDV.isEmpty ∧
  a.spline.isSome = t.reqSpline ∧
  a.ptm.isSome = t.reqPTM ∧
  a.f.isSome = t.reqF

/-! Concrete instances used to evaluate the engine on closed inputs. -/

/-- A trivial external spline evaluator. -/
def E0 : Spline → List (List ℚ) → List Nat → Arr := fun _ _ _ => Arr.scal 0

/-- A 2-dimensional (PT) spline with knot ranges covering 0 to 4. -/
def spPT : Spline := ⟨[[0, 4], [0, 4]], [1, 1]⟩

/-- A 3-dimensional (PTM) spline whose molality knots start at 0. -/
def spPTM : Spline := ⟨[[0, 4], [0, 4], [0, 4]], [1, 1, 1]⟩

/-- A 3-dimensional spline whose molality knots start above 0 (at 1). -/
def spPTMpos : Spline := ⟨[[0, 4], [0, 4], [1, 4]], [1, 1, 1]⟩

/-- A 2-dimensional evaluation point set inside the knot ranges. -/
def ptm2 : PTMInput := .grid [[1], [1]]

/-- A 3-dimensional evaluation point set inside the knot ranges. -/
def ptm3 : PTMInput := .grid [[1], [1], [1]]

/-- The empty argument dict. -/
def noneArgs : EvalArgs := ⟨none, none, none, none, none, none, none, none⟩

/-- A variable with no requirements. -/
def tdvPlain : TDV :=
  ⟨"x", [], false, false, false, [], false, false, false, false, false, fun _ => .scal 7⟩

/-- A variable requiring only the solvent molecular weight. -/
def tdvMWv : TDV :=
  ⟨"x", [], false, true, false, [], false, false, false, false, false, fun _ => .scal 7⟩

/-- A variable requiring molality (reqM). -/
def tdvReqM : TDV :=
  ⟨"x", [], false, false, false, [], false, false, false, true, false, fun _ => .scal 7⟩

/-- A variable requiring zero-concentration spline support (req0M). -/
def tdv0M : TDV :=
  ⟨"x", [], false, false, false, [], false, false, false, false, true, fun _ => .scal 7⟩

/-- A req0M variable whose computation returns a grid of shape (1, 1, 2),
matching the point set wrapped around a single-point request with an
injected zero concentration. -/
def tdvShape0M : TDV :=
  ⟨"x", [], false, false, false, [], false, false, false, false, true,
   fun _ => .arr [.arr [.arr [.scal 5, .scal 6]]]⟩

/-- A requirement-free variable whose computation returns a grid of shape
(1, 1), matching the point set wrapped around a single-point request on a
2-dimensional spline. -/
def tdvShapePT : TDV :=
  ⟨"x", [], false, false, false, [], false, false, false, false, false,
   fun _ => .arr [.arr [.scal 5]]⟩

/-- A variable depending on "b" (half of a dependency cycle). -/
def tdvA : TDV :=
  ⟨"a", [], false, false, false, ["b"], false, false, false, false, false, fun _ => .scal 0⟩

/-- A variable depending on "a" (the other half of the cycle). -/
def tdvB : TDV :=
  ⟨"b", [], false, false, false, ["a"], false, false, false, false, false, fun _ => .scal 0⟩

/-- A two-variable spec whose dependency graph is a cycle. -/
def cyclicSpec : List TDV := [tdvA, tdvB]

/-! Helper lemmas shared by the claim theorems. -/

theorem map_fst_pair {β : Type} (g : String → β) :
    ∀ l : List String, (l.map (fun rd => (rd, g rd))).map Prod.fst = l := by
  intro l
  induction l with
  | nil => rfl
  | cons a as ih => simp only [List.map_cons, ih]

theorem filter_isEmpty_false_of_any {p : TDV → Bool} {spec : List TDV}
    (h : spec.any p = true) : (spec.filter p).isEmpty = false := by
  rcases List.any_eq_true.mp h with ⟨t, ht, hp⟩
  have hmem : t ∈ spec.filter p := List.mem_filter.mpr ⟨ht, hp⟩
  rcases hfe : spec.filter p with _ | ⟨a, l⟩
  · rw [hfe] at hmem; cases hmem
  · rfl

theorem evalGibbs_eq_err_of_checkInputs_error (E : Spline → List (List ℚ) → List Nat → Arr)
    (dreg : List DerivSpec) (sp : Spline) (ptm : PTMInput) (spec : List TDV)
    (MWv MWu : Option ℚ) (foe : Bool) (e : GibbsError)
    (h : _checkInputs sp sp.number.length spec ptm MWv MWu foe = .error e) :
    evalSolutionGibbs E dreg sp ptm spec MWv MWu foe = .err e := by
  unfold evalSolutionGibbs
  simp only [h]

theorem evalGibbs_ne_err_of_checkInputs_ok (E : Spline → List (List ℚ) → List Nat → Arr)
    (dreg : List DerivSpec) (sp : Spline) (ptm : PTMInput) (spec : List TDV)
    (MWv MWu : Option ℚ) (foe : Bool) (e : GibbsError)
    (h : _checkInputs sp sp.number.length spec ptm MWv MWu foe = .ok ()) :
    evalSolutionGibbs E dreg sp ptm spec MWv MWu foe ≠ .err e := by
  unfold evalSolutionGibbs
  simp only [h]
  rcases hs : schedLoop _ spec (spec.length + 1) [] [] [] with _ | ⟨fields, trace⟩
  · simp
  · simp

/-- C4: whenever evalSolutionGibbs raises a validation error, the error is
exactly the one produced by the pre-computation validation `_checkInputs`:
errors are raised before any thermodynamic variable is computed, and the
error outcome carries no result object, so no partially populated result is
ever visible to the caller. -/
theorem evalGibbs_err_iff_checkInputs_error (E : Spline → List (List ℚ) → List Nat → Arr)
    (dreg : List DerivSpec) (sp : Spline) (ptm : PTMInput) (spec : List TDV)
    (MWv MWu : Option ℚ) (foe : Bool) (e : GibbsError) :
    evalSolutionGibbs E dreg sp ptm spec MWv MWu foe = .err e ↔
      _checkInputs sp sp.number.length spec ptm MWv MWu foe = .error e := by
  constructor
  · intro h
    rcases hc : _checkInputs sp sp.number.length spec ptm MWv MWu foe with e' | u
    · have h2 := evalGibbs_eq_err_of_checkInputs_error E dreg sp ptm spec MWv MWu foe e' hc
      rw [h2] at h
      have he : e' = e := by simpa using h
      rw [he]
    · cases u
      exact absurd h (evalGibbs_ne_err_of_checkInputs_ok E dreg sp ptm spec MWv MWu foe e hc)
  · intro h
    exact evalGibbs_eq_err_of_checkInputs_error E dreg sp ptm spec MWv MWu foe e h

/-- Witness for C4 at a concrete failing input: a 2-dimensional spline with a
molality-requiring variable fails with the dimension-mismatch error. -/
theorem evalGibbs_err_iff_checkInputs_error_witness :
    evalSolutionGibbs E0 [] spPT ptm2 [tdvReqM] none none true =
      .err (.dimensionMismatch ["x"]) :=
  (evalGibbs_err_iff_checkInputs_error E0 [] spPT ptm2 [tdvReqM] none none true
    (.dimensionMismatch ["x"])).mpr rfl

/-- C6: a spline whose molality-dimension knot range starts above zero,
combined with a closure containing a zero-concentration-requiring variable,
makes evalSolutionGibbs raise the incompatible-spline error (naming the
req0M variables) before any computation is performed. -/
theorem evalGibbs_req0M_incompatible_spline (E : Spline → List (List ℚ) → List Nat → Arr)
    (dreg : List DerivSpec) (sp : Spline) (ptm : PTMInput) (spec : List TDV)
    (MWv MWu : Option ℚ) (foe : Bool)
    (hdim : sp.number.length = 3)
    (h0 : spec.any (fun t => t.req0M) = true)
    (hk : 0 < (knotRange sp iM).1) :
    evalSolutionGibbs E dreg sp ptm spec MWv MWu foe =
      .err (.incompatibleSpline ((spec.filter (fun t => t.req0M)).map (fun t => t.name))) := by
  apply evalGibbs_eq_err_of_checkInputs_error
  have hfil := filter_isEmpty_false_of_any h0
  unfold _checkInputs _checkSplineAndTdvs
  rw [hdim]
  rw [if_pos ⟨rfl, by simp [hfil], hk.ne'⟩]

/-- Witness for C6: molality knots starting at 1 with a req0M variable. -/
theorem evalGibbs_req0M_incompatible_spline_witness :
    evalSolutionGibbs E0 [] spPTMpos ptm3 [tdv0M] none none true =
      .err (.incompatibleSpline ["x"]) :=
  evalGibbs_req0M_incompatible_spline E0 [] spPTMpos ptm3 [tdv0M] none none true
    rfl rfl (by decide)

/-- C7: a 2-dimensional spline combined with any molality- or
conversion-factor-requiring variable makes evalSolutionGibbs raise the
dimension-mismatch error before any computation is performed. -/
theorem evalGibbs_dim2_dimension_mismatch (E : Spline → List (List ℚ) → List Nat → Arr)
    (dreg : List DerivSpec) (sp : Spline) (ptm : PTMInput) (spec : List TDV)
    (MWv MWu : Option ℚ) (foe : Bool)
    (hdim : sp.number.length = 2)
    (hM : spec.any (fun t => t.reqF || t.reqM) = true) :
    evalSolutionGibbs E dreg sp ptm spec MWv MWu foe =
      .err (.dimensionMismatch
        (((spec.filter (fun t => t.reqF || t.reqM)).map (fun t => t.name)).dedup)) := by
  apply evalGibbs_eq_err_of_checkInputs_error
  have hfil := filter_isEmpty_false_of_any hM
  unfold _checkInputs _checkSplineAndTdvs
  rw [hdim]
  rw [if_neg (by simp), if_pos ⟨rfl, by simp [hfil]⟩]

/-- Witness for C7: a 2-dimensional spline with a reqM variable. -/
theorem evalGibbs_dim2_dimension_mismatch_witness :
    evalSolutionGibbs E0 [] spPT ptm2 [tdvReqM] (some 1) none true =
      .err (.dimensionMismatch ["x"]) :=
  evalGibbs_dim2_dimension_mismatch E0 [] spPT ptm2 [tdvReqM] (some 1) none true rfl rfl

/-- C9: the external spline evaluator is invoked exactly once per distinct
derivative name required by the closure: the per-call record of
getDerivatives has no duplicates, each required name is called exactly once
even when several variables require it, and one derivative field is stored
per call. -/
theorem getDerivatives_once_per_distinct (E : Spline → List (List ℚ) → List Nat → Arr)
    (dreg : List DerivSpec) (sp : Spline) (ptm : List (List ℚ)) (dimCt : Nat)
    (spec : List TDV) :
    (getDerivatives E dreg sp ptm dimCt spec).2.Nodup ∧
    (∀ dn : String, (getDerivatives E dreg sp ptm dimCt spec).2.count dn =
      if dn ∈ spec.flatMap (fun t => t.reqDerivs) then 1 else 0) ∧
    (getDerivatives E dreg sp ptm dimCt spec).1.map Prod.fst =
      (getDerivatives E dreg sp ptm dimCt spec).2 := by
  exact ⟨List.nodup_dedup _, fun dn => List.count_dedup _ _, map_fst_pair _ _⟩

theorem needs0M_eq_true {spec : List TDV} {P T Ms : List ℚ} {m : ℚ}
    (hm : m ≠ 0) (h0 : spec.any (fun t => t.req0M) = true) :
    _needs0M 3 [P, T, m :: Ms] spec = true := by
  unfold _needs0M
  simp [iM, List.getD_cons_succ, List.getD_cons_zero, hm, h0]

theorem needs0M_eq_false_of_head0 {spec : List TDV} {P T Ms : List ℚ} :
    _needs0M 3 [P, T, 0 :: Ms] spec = false := by
  unfold _needs0M
  simp [iM, List.getD_cons_succ, List.getD_cons_zero]

theorem wrapPTM_grid_inject {spec : List TDV} {P T Ms : List ℚ} {m : ℚ}
    (hm : m ≠ 0) (h0 : spec.any (fun t => t.req0M) = true) :
    _wrapPTM (.grid [P, T, m :: Ms]) 3 spec =
      ([P, T, 0 :: m :: Ms], .grid [P, T, 0 :: m :: Ms]) := by
  simp [_wrapPTM, needs0M_eq_true hm h0, iM, List.set,
    List.getD_cons_succ, List.getD_cons_zero]

theorem wrapPTM_grid_head0 {spec : List TDV} {P T Ms : List ℚ} :
    _wrapPTM (.grid [P, T, 0 :: Ms]) 3 spec = ([P, T, 0 :: Ms], .grid [P, T, 0 :: Ms]) := by
  simp [_wrapPTM, needs0M_eq_false_of_head0, iM]

theorem evalGibbs_ok_inv {E : Spline → List (List ℚ) → List Nat → Arr}
    {dreg : List DerivSpec} {sp : Spline} {ptm : PTMInput} {spec : List TDV}
    {MWv MWu : Option ℚ} {foe : Bool} {flds : List (String × Arr)} {po cp : PTMInput}
    {tr : List (String × EvalArgs)}
    (hok : evalSolutionGibbs E dreg sp ptm spec MWv MWu foe = .ok flds po cp tr) :
    _checkInputs sp sp.number.length spec ptm MWv MWu foe = .ok () ∧
    po = ptm ∧ cp = (_wrapPTM ptm sp.number.length spec).2 ∧
    ∃ fields,
      schedLoop (evalCtx E dreg sp spec MWv MWu (_wrapPTM ptm sp.number.length spec).1)
        spec (spec.length + 1) [] [] [] = some (fields, tr) ∧
      flds = _remove0M fields ptm (_wrapPTM ptm sp.number.length spec).1 := by
  simp only [evalSolutionGibbs] at hok
  rcases hc : _checkInputs sp sp.number.length spec ptm MWv MWu foe with e | u
  · rw [hc] at hok
    exact absurd hok (by simp)
  · cases u
    rw [hc] at hok
    simp only [] at hok
    rcases hs : schedLoop (evalCtx E dreg sp spec MWv MWu (_wrapPTM ptm sp.number.length spec).1)
        spec (spec.length + 1) [] [] [] with _ | ⟨fields, trace⟩
    · rw [hs] at hok
      exact absurd hok (by simp)
    · rw [hs] at hok
      simp only [] at hok
      injection hok with h1 h2 h3 h4
      exact ⟨rfl, h2.symm, h3.symm, fields, by rw [← h4], h1.symm⟩

/-- C10: for an array-form PTM on a 3-dimensional spline, a closure with a
zero-concentration-requiring variable, and a nonzero first molality, the
caller's PTM argument after a successful call contains the injected leading
zero molality (the in-place mutation of `_wrapPTM`), while the PTM stored in
the output object keeps the original values. -/
theorem evalGibbs_mutates_caller_ptm (E : Spline → List (List ℚ) → List Nat → Arr)
    (dreg : List DerivSpec) (sp : Spline) (spec : List TDV) (MWv MWu : Option ℚ)
    (foe : Bool) (P T Ms : List ℚ) (m : ℚ) (flds : List (String × Arr)) (po cp : PTMInput)
    (tr : List (String × EvalArgs))
    (hdim : sp.number.length = 3) (hm : m ≠ 0)
    (h0 : spec.any (fun t => t.req0M) = true)
    (hok : evalSolutionGibbs E dreg sp (.grid [P, T, m :: Ms]) spec MWv MWu foe =
      .ok flds po cp tr) :
    po = .grid [P, T, m :: Ms] ∧ cp = .grid [P, T, 0 :: m :: Ms] := by
  have hinv := evalGibbs_ok_inv hok
  refine ⟨hinv.2.1, ?_⟩
  have h2 := hinv.2.2.1
  rw [hdim, wrapPTM_grid_inject hm h0] at h2
  exact h2

/-- Witness for C10: a concrete successful call whose caller-visible PTM has
the synthetic zero molality after the call. -/
theorem evalGibbs_mutates_caller_ptm_witness :
    evalSolutionGibbs E0 [] spPTM (.grid [[1], [1], [1]]) [tdv0M] none none true =
      .ok [("x", Arr.scal 7)] (.grid [[1], [1], [1]]) (.grid [[1], [1], [0, 1]])
        [("x", noneArgs)] ∧
    (PTMInput.grid [[1], [1], [1]] = PTMInput.grid [[1], [1], [1]] ∧
     PTMInput.grid [[1], [1], [0, 1]] = PTMInput.grid [[1], [1], [(0 : ℚ), 1]]) :=
  ⟨rfl,
   evalGibbs_mutates_caller_ptm E0 [] spPTM [tdv0M] none none true [1] [1] [] 1
     [("x", Arr.scal 7)] (.grid [[1], [1], [1]]) (.grid [[1], [1], [0, 1]])
     [("x", noneArgs)] rfl (by decide) rfl rfl⟩

theorem remove0M_head0 {fields : List (String × Arr)} {P T Ms : List ℚ} :
    _remove0M fields (.grid [P, T, 0 :: Ms]) [P, T, 0 :: Ms] = fields := by
  simp [_remove0M, iM, List.getD_cons_succ, List.getD_cons_zero]

theorem remove0M_slice {fields : List (String × Arr)} {P T Ms W : List ℚ} {m : ℚ}
    (hm : m ≠ 0) :
    _remove0M fields (.grid [P, T, m :: Ms]) [P, T, 0 :: W] =
      fields.map (fun pr => (pr.1, sliceAxis iM pr.2)) := by
  simp [_remove0M, iM, List.getD_cons_succ, List.getD_cons_zero, hm]

/-- C3: for a 3-dimensional spline and a closure containing a
zero-concentration-requiring variable, a successful evaluation whose
molality sequence explicitly starts with 0 and a successful evaluation of
the same points without that leading 0 agree at every nonzero molality: the
second result is exactly the first with the zero-concentration row sliced
off along the molality axis, and both runs perform identical computations.
The slicing of `_remove0M` exactly undoes the injection of `_wrapPTM`. -/
theorem eval_zeroM_roundtrip (E : Spline → List (List ℚ) → List Nat → Arr)
    (dreg : List DerivSpec) (sp : Spline) (spec : List TDV) (MWv MWu : Option ℚ)
    (foe : Bool) (P T Ms : List ℚ) (m : ℚ)
    (f1 f2 : List (String × Arr)) (p1 c1 p2 c2 : PTMInput)
    (t1 t2 : List (String × EvalArgs))
    (hdim : sp.number.length = 3) (hm : m ≠ 0)
    (h0 : spec.any (fun t => t.req0M) = true)
    (hok1 : evalSolutionGibbs E dreg sp (.grid [P, T, 0 :: m :: Ms]) spec MWv MWu foe =
      .ok f1 p1 c1 t1)
    (hok2 : evalSolutionGibbs E dreg sp (.grid [P, T, m :: Ms]) spec MWv MWu foe =
      .ok f2 p2 c2 t2) :
    f2 = f1.map (fun pr => (pr.1, sliceAxis iM pr.2)) ∧ t2 = t1 := by
  obtain ⟨hc1, hp1, hcp1, fields1, hs1, hf1⟩ := evalGibbs_ok_inv hok1
  obtain ⟨hc2, hp2, hcp2, fields2, hs2, hf2⟩ := evalGibbs_ok_inv hok2
  have hw1 : (_wrapPTM (.grid [P, T, 0 :: m :: Ms]) sp.number.length spec).1 =
      [P, T, 0 :: m :: Ms] := by
    rw [hdim, wrapPTM_grid_head0]
  have hw2 : (_wrapPTM (.grid [P, T, m :: Ms]) sp.number.length spec).1 =
      [P, T, 0 :: m :: Ms] := by
    rw [hdim, wrapPTM_grid_inject hm h0]
  rw [hw1] at hs1 hf1
  rw [hw2] at hs2 hf2
  have heq := hs1.symm.trans hs2
  simp only [Option.some.injEq, Prod.mk.injEq] at heq
  obtain ⟨hfe, hte⟩ := heq
  constructor
  · rw [hf2, remove0M_slice hm, hf1, remove0M_head0, hfe]
  · exact hte.symm

/-- Witness for C3: a concrete pair of runs, with and without an explicit
leading zero molality, whose outputs agree after slicing. -/
theorem eval_zeroM_roundtrip_witness :
    evalSolutionGibbs E0 [] spPTM (.grid [[1], [1], [0, 1]]) [tdv0M] none none true =
      .ok [("x", Arr.scal 7)] (.grid [[1], [1], [0, 1]]) (.grid [[1], [1], [0, 1]])
        [("x", noneArgs)] ∧
    evalSolutionGibbs E0 [] spPTM (.grid [[1], [1], [1]]) [tdv0M] none none true =
      .ok [("x", Arr.scal 7)] (.grid [[1], [1], [1]]) (.grid [[1], [1], [0, 1]])
        [("x", noneArgs)] ∧
    ([("x", Arr.scal 7)] =
        List.map (fun pr => (pr.1, sliceAxis iM pr.2)) [("x", Arr.scal 7)] ∧
      [("x", noneArgs)] = [("x", noneArgs)]) :=
  ⟨rfl, rfl,
   eval_zeroM_roundtrip E0 [] spPTM [tdv0M] none none true [1] [1] [] 1
     [("x", Arr.scal 7)] [("x", Arr.scal 7)]
     (.grid [[1], [1], [0, 1]]) (.grid [[1], [1], [0, 1]])
     (.grid [[1], [1], [1]]) (.grid [[1], [1], [0, 1]])
     [("x", noneArgs)] [("x", noneArgs)]
     rfl (by decide) rfl rfl rfl⟩

theorem range3_map {α : Type} (f : Nat → α) : (List.range 3).map f = [f 0, f 1, f 2] := by
  rfl

theorem hasShape_drop {c : Nat} {v : Arr} (h : hasShape [c + 1] v = true) :
    hasShape [c] (sliceAxis 0 v) = true := by
  cases v with
  | scal q => simp [hasShape] at h
  | arr l =>
    simp only [hasShape, Bool.and_eq_true, beq_iff_eq, List.all_eq_true] at h
    obtain ⟨hlen, hall⟩ := h
    simp only [sliceAxis, hasShape, Bool.and_eq_true, beq_iff_eq, List.all_eq_true]
    refine ⟨by simp [List.length_drop, hlen], fun x hx => hall x (List.mem_of_mem_drop hx)⟩

theorem hasShape_slice1 {b c : Nat} {v : Arr} (h : hasShape [b, c + 1] v = true) :
    hasShape [b, c] (sliceAxis 1 v) = true := by
  cases v with
  | scal q => simp [hasShape] at h
  | arr l =>
    simp only [hasShape, Bool.and_eq_true, beq_iff_eq, List.all_eq_true] at h
    obtain ⟨hlen, hall⟩ := h
    simp only [sliceAxis, hasShape, Bool.and_eq_true, beq_iff_eq, List.all_eq_true,
      List.length_map]
    refine ⟨hlen, fun x hx => ?_⟩
    rcases List.mem_map.mp hx with ⟨y, hy, rfl⟩
    exact hasShape_drop (hall y hy)

theorem hasShape_slice2 {a b c : Nat} {v : Arr} (h : hasShape [a, b, c + 1] v = true) :
    hasShape [a, b, c] (sliceAxis 2 v) = true := by
  cases v with
  | scal q => simp [hasShape] at h
  | arr l =>
    simp only [hasShape, Bool.and_eq_true, beq_iff_eq, List.all_eq_true] at h
    obtain ⟨hlen, hall⟩ := h
    simp only [sliceAxis, hasShape, Bool.and_eq_true, beq_iff_eq, List.all_eq_true,
      List.length_map]
    refine ⟨hlen, fun x hx => ?_⟩
    rcases List.mem_map.mp hx with ⟨y, hy, rfl⟩
    exact hasShape_slice1 (hall y hy)

theorem arrSizeList_const {l : List Arr} {k : Nat} (h : ∀ a ∈ l, arrSize a = k) :
    arrSizeList l = l.length * k := by
  induction l with
  | nil => simp [arrSizeList]
  | cons a as ih =>
    simp only [arrSizeList, List.length_cons]
    rw [h a (List.mem_cons_self _ _), ih (fun x hx => h x (List.mem_cons_of_mem _ hx))]
    ring

theorem arrSize_of_hasShape :
    ∀ (ns : List Nat) (v : Arr), hasShape ns v = true → arrSize v = ns.prod := by
  intro ns
  induction ns with
  | nil =>
    intro v h
    cases v with
    | scal q => simp [arrSize]
    | arr l => simp [hasShape] at h
  | cons n ns ih =>
    intro v h
    cases v with
    | scal q => simp [hasShape] at h
    | arr l =>
      simp only [hasShape, Bool.and_eq_true, beq_iff_eq, List.all_eq_true] at h
      obtain ⟨hlen, hall⟩ := h
      have hsz : arrSizeList l = l.length * ns.prod :=
        arrSizeList_const (fun a ha => ih a (hall a ha))
      simp [arrSize, hsz, hlen, List.prod_cons]

theorem setF_pred {Q : Arr → Prop} {fields : List (String × Arr)} {n : String} {v : Arr}
    (hf : ∀ pr ∈ fields, Q pr.2) (hv : Q v) :
    ∀ pr ∈ setF fields n v, Q pr.2 := by
  intro pr hpr
  unfold setF at hpr
  by_cases hany : fields.any (fun q => q.1 == n) = true
  · rw [if_pos hany] at hpr
    rcases List.mem_map.mp hpr with ⟨x, hx, rfl⟩
    by_cases hx1 : (x.1 == n) = true
    · simp only [if_pos hx1]
      exact hv
    · simp only [if_neg hx1]
      exact hf x hx
  · rw [if_neg hany] at hpr
    rcases List.mem_append.mp hpr with hmem | hmem
    · exact hf _ hmem
    · have : pr = (n, v) := List.mem_singleton.mp hmem
      rw [this]
      exact hv

theorem foldl_fields_pred {Q : Arr → Prop} (ctx : SchedCtx) :
    ∀ (batch : List TDV) (st : List String × List (String × Arr) × List (String × EvalArgs)),
      (∀ t ∈ batch, ∀ a, Q (t.calcFn a)) →
      (∀ pr ∈ st.2.1, Q pr.2) →
      ∀ pr ∈ (batch.foldl (schedStep ctx) st).2.1, Q pr.2 := by
  intro batch
  induction batch with
  | nil =>
    intro st _ hst
    simpa using hst
  | cons t ts ih =>
    intro st hb hst
    apply ih
    · intro u hu a
      exact hb u (List.mem_cons_of_mem _ hu) a
    · intro pr hpr
      exact setF_pred hst (hb t (List.mem_cons_self _ _) _) pr hpr

theorem schedLoop_fields_pred (Q : Arr → Prop) (ctx : SchedCtx) (spec : List TDV)
    (hQ : ∀ t ∈ spec, ∀ a, Q (t.calcFn a)) :
    ∀ (fuel : Nat) (completed : List String) (fields : List (String × Arr))
      (trace : List (String × EvalArgs)) (out : (List (String × Arr)) × List (String × EvalArgs)),
      (∀ pr ∈ fields, Q pr.2) →
      schedLoop ctx spec fuel completed fields trace = some out →
      ∀ pr ∈ out.1, Q pr.2 := by
  intro fuel
  induction fuel with
  | zero =>
    intro completed fields trace out hfk hsl
    simp only [schedLoop] at hsl
    by_cases hg : completed.length < spec.length
    · rw [if_pos hg] at hsl
      cases hsl
    · rw [if_neg hg] at hsl
      injection hsl with h
      rw [← h]
      exact hfk
  | succ fuel ih =>
    intro completed fields trace out hfk hsl
    simp only [schedLoop] at hsl
    by_cases hg : completed.length < spec.length
    · rw [if_pos hg] at hsl
      by_cases hb : (schedPass spec completed).isEmpty = true
      · rw [if_pos hb] at hsl
        cases hsl
      · rw [if_neg hb] at hsl
        refine ih _ _ _ _ (foldl_fields_pred ctx _ _ ?_ hfk) hsl
        intro u hu a
        exact hQ u (List.mem_of_mem_filter hu) a
    · rw [if_neg hg] at hsl
      injection hsl with h
      rw [← h]
      exact hfk

theorem needs0M_dim3 {d : Nat} {dims : List (List ℚ)} {spec : List TDV}
    (h : _needs0M d dims spec = true) : d = 3 := by
  unfold _needs0M at h
  simp only [Bool.and_eq_true, beq_iff_eq] at h
  exact h.1.1

theorem needs0M_headI_ne_zero {d : Nat} {dims : List (List ℚ)} {spec : List TDV}
    (h : _needs0M d dims spec = true) : (dims.getD iM []).headI ≠ 0 := by
  unfold _needs0M at h
  simp only [Bool.and_eq_true, decide_eq_true_eq] at h
  exact h.1.2

theorem point_dims_map_length (vals : List ℚ) (d : Nat) :
    ((List.range d).map (fun i => [vals.getD i 0])).map List.length =
      List.replicate d 1 := by
  induction d with
  | zero => rfl
  | succ d ih =>
    rw [List.range_succ, List.map_append, List.map_append, ih, List.replicate_succ']
    rfl

theorem wrapPTM_point_inject {spec : List TDV} {vals : List ℚ}
    (h : _needs0M 3 [[vals.getD 0 0], [vals.getD 1 0], [vals.getD 2 0]] spec = true) :
    _wrapPTM (.point vals) 3 spec =
      ([[vals.getD 0 0], [vals.getD 1 0], [0, vals.getD 2 0]], .point vals) := by
  simp only [_wrapPTM, range3_map]
  rw [if_pos h]
  simp [iM, List.set, List.getD_cons_succ, List.getD_cons_zero]

theorem wrapPTM_point_noinject {spec : List TDV} {vals : List ℚ} {d : Nat}
    (h : _needs0M d ((List.range d).map (fun i => [vals.getD i 0])) spec = false) :
    _wrapPTM (.point vals) d spec =
      ((List.range d).map (fun i => [vals.getD i 0]), .point vals) := by
  simp only [_wrapPTM]
  rw [if_neg]
  rw [h]
  exact Bool.false_ne_true

theorem remove0M_point_slice {fields : List (String × Arr)} {vals : List ℚ}
    {A B W : List ℚ} (hm : vals.getD 2 0 ≠ 0) :
    _remove0M fields (.point vals) [A, B, 0 :: W] =
      fields.map (fun pr => (pr.1, sliceAxis iM pr.2)) := by
  have hm2 : vals[2]?.getD 0 ≠ 0 := by simpa using hm
  simp [_remove0M, iM, List.getD_cons_succ, List.getD_cons_zero, hm2]

theorem remove0M_point_unwrapped {fields : List (String × Arr)} {vals : List ℚ}
    {d : Nat} :
    _remove0M fields (.point vals) ((List.range d).map (fun i => [vals.getD i 0])) =
      fields := by
  unfold _remove0M
  by_cases hd : ((List.range d).map (fun i => [vals.getD i 0])).length = 3
  · have hd3 : d = 3 := by simpa using hd
    subst hd3
    rw [range3_map]
    by_cases hz : vals.getD 2 0 = 0
    · have hz2 : vals[2]?.getD 0 = 0 := by simpa using hz
      simp [iM, List.getD_cons_succ, List.getD_cons_zero, hz2]
    · have hz2 : ¬vals[2]?.getD 0 = 0 := by simpa using hz
      simp [iM, List.getD_cons_succ, List.getD_cons_zero, hz2]
  · rw [if_neg (fun h => hd h.1)]

/-- C8: a single-point request (one scalar per spline dimension) yields,
for every computed variable whose computation respects the grid shape of
the wrapped point set, an array with exactly one element — on splines of
any dimensionality, including 3-dimensional splines where a synthetic
zero-concentration point was temporarily injected (the injected row is
sliced back off before the object is returned). -/
theorem evalGibbs_single_point_size_one (E : Spline → List (List ℚ) → List Nat → Arr)
    (dreg : List DerivSpec) (sp : Spline) (spec : List TDV) (MWv MWu : Option ℚ)
    (foe : Bool) (vals : List ℚ) (flds : List (String × Arr)) (po cp : PTMInput)
    (tr : List (String × EvalArgs))
    (hshape : ∀ tv ∈ spec, ∀ a, hasShape
      ((_wrapPTM (.point vals) sp.number.length spec).1.map List.length)
      (tv.calcFn a) = true)
    (hok : evalSolutionGibbs E dreg sp (.point vals) spec MWv MWu foe =
      .ok flds po cp tr) :
    ∀ pr ∈ flds, arrSize pr.2 = 1 := by
  obtain ⟨hc, hp, hcp, fields, hs, hf⟩ := evalGibbs_ok_inv hok
  by_cases h0m : _needs0M sp.number.length
      ((List.range sp.number.length).map (fun i => [vals.getD i 0])) spec = true
  · have hd3 : sp.number.length = 3 := needs0M_dim3 h0m
    rw [hd3] at hs hf hshape h0m
    rw [range3_map] at h0m
    have hw := wrapPTM_point_inject h0m
    rw [hw] at hs hf hshape
    have hm : vals.getD 2 0 ≠ 0 := by
      have := needs0M_headI_ne_zero h0m
      simpa [iM, List.getD_cons_succ, List.getD_cons_zero] using this
    have hshape2 : ∀ tv ∈ spec, ∀ a, hasShape [1, 1, 2] (tv.calcFn a) = true := by
      intro tv htv a
      simpa using hshape tv htv a
    have hfq0 := schedLoop_fields_pred (fun v => hasShape [1, 1, 2] v = true) _ spec
      hshape2 _ _ _ _ _ (by intro pr hpr; cases hpr) hs
    have hfq : ∀ pr ∈ fields, hasShape [1, 1, 2] pr.2 = true := fun pr hpr => hfq0 pr hpr
    rw [hf, remove0M_point_slice hm]
    intro pr hpr
    rcases List.mem_map.mp hpr with ⟨x, hx, rfl⟩
    have hsh : hasShape [1, 1, 1] (sliceAxis 2 x.2) = true := hasShape_slice2 (hfq x hx)
    have := arrSize_of_hasShape [1, 1, 1] _ hsh
    simpa [iM] using this
  · have h0f : _needs0M sp.number.length
        ((List.range sp.number.length).map (fun i => [vals.getD i 0])) spec = false := by
      simpa using h0m
    have hw := wrapPTM_point_noinject h0f
    rw [hw] at hs hf hshape
    have hshape2 : ∀ tv ∈ spec, ∀ a,
        hasShape (List.replicate sp.number.length 1) (tv.calcFn a) = true := by
      intro tv htv a
      have := hshape tv htv a
      rwa [point_dims_map_length] at this
    have hfq0 := schedLoop_fields_pred
      (fun v => hasShape (List.replicate sp.number.length 1) v = true) _ spec
      hshape2 _ _ _ _ _ (by intro pr hpr; cases hpr) hs
    have hfq : ∀ pr ∈ fields, hasShape (List.replicate sp.number.length 1) pr.2 = true :=
      fun pr hpr => hfq0 pr hpr
    rw [hf, remove0M_point_unwrapped]
    intro pr hpr
    have := arrSize_of_hasShape (List.replicate sp.number.length 1) _ (hfq pr hpr)
    rw [this, List.prod_replicate, one_pow]

/-- Witness for C8 at two concrete single-point requests: a 2-dimensional
spline, and a 3-dimensional spline with an injected zero concentration; in
both runs the single output variable is a one-element array. -/
theorem evalGibbs_single_point_size_one_witness :
    evalSolutionGibbs E0 [] spPT (.point [1, 1]) [tdvShapePT] none none true =
      .ok [("x", Arr.arr [Arr.arr [Arr.scal 5]])] (.point [1, 1]) (.point [1, 1])
        [("x", noneArgs)] ∧
    arrSize (Arr.arr [Arr.arr [Arr.scal 5]]) = 1 ∧
    evalSolutionGibbs E0 [] spPTM (.point [1, 1, 2]) [tdvShape0M] none none true =
      .ok [("x", Arr.arr [Arr.arr [Arr.arr [Arr.scal 6]]])] (.point [1, 1, 2])
        (.point [1, 1, 2]) [("x", noneArgs)] ∧
    arrSize (Arr.arr [Arr.arr [Arr.arr [Arr.scal 6]]]) = 1 :=
  ⟨rfl,
   evalGibbs_single_point_size_one E0 [] spPT [tdvShapePT] none none true [1, 1]
     [("x", Arr.arr [Arr.arr [Arr.scal 5]])] (.point [1, 1]) (.point [1, 1])
     [("x", noneArgs)]
     (by
       intro tv htv a
       rcases List.mem_singleton.mp htv with rfl
       rfl)
     rfl
     ("x", Arr.arr [Arr.arr [Arr.scal 5]])
     (List.mem_singleton.mpr rfl),
   rfl,
   evalGibbs_single_point_size_one E0 [] spPTM [tdvShape0M] none none true [1, 1, 2]
     [("x", Arr.arr [Arr.arr [Arr.arr [Arr.scal 6]]])] (.point [1, 1, 2]) (.point [1, 1, 2])
     [("x", noneArgs)]
     (by
       intro tv htv a
       rcases List.mem_singleton.mp htv with rfl
       rfl)
     rfl
     ("x", Arr.arr [Arr.arr [Arr.arr [Arr.scal 6]]])
     (List.mem_singleton.mpr rfl)⟩

/-- C1 is a code bug (parameter swap): with a reqMWv variable, MWv = 0 and
MWu = 1, the call succeeds instead of failing, because `_checkInputs` passes
(MWv, MWu) positionally into `_checkUserInput`, whose parameters are
declared in the order (MWu, MWv).  The last conjunct shows the reqMWv check
actually firing when the solute weight, not the solvent weight, is absent. -/
theorem evalGibbs_mw_swap_no_missing_parameter :
    mwMissing (some 0) = true ∧
    [tdvMWv].any (fun t => t.reqMWv) = true ∧
    _checkInputs spPT 2 [tdvMWv] ptm2 (some 0) (some 1) true = .ok () ∧
    evalSolutionGibbs E0 [] spPT ptm2 [tdvMWv] (some 0) (some 1) true =
      .ok [("x", Arr.scal 7)] ptm2 ptm2
        [("x", ⟨none, none, some (some 0), none, none, none, none, none⟩)] ∧
    _checkInputs spPT 2 [tdvMWv] ptm2 (some 1) (some 0) true =
      .error (.missingMWv ["x"]) :=
  ⟨rfl, rfl, rfl, rfl, rfl⟩

theorem isEmpty_false_of_mem {α : Type} {l : List α} {a : α} (h : a ∈ l) :
    l.isEmpty = false := by
  cases l
  · cases h
  · rfl

theorem insertName_mem {completed : List String} {n x : String} :
    x ∈ insertName completed n ↔ x ∈ completed ∨ x = n := by
  unfold insertName
  by_cases h : n ∈ completed
  · rw [if_pos h]
    exact ⟨Or.inl, fun hx => hx.elim id (fun hxe => hxe ▸ h)⟩
  · rw [if_neg h]
    simp [List.mem_append]

theorem insertName_nodup {completed : List String} {n : String} (h : completed.Nodup) :
    (insertName completed n).Nodup := by
  unfold insertName
  by_cases hn : n ∈ completed
  · rw [if_pos hn]; exact h
  · rw [if_neg hn]
    simpa [List.nodup_append] using ⟨h, hn⟩

theorem insertName_length_ge {completed : List String} {n : String} :
    completed.length ≤ (insertName completed n).length := by
  unfold insertName
  by_cases hn : n ∈ completed
  · rw [if_pos hn]
  · rw [if_neg hn]
    simp

theorem insertName_length_lt {completed : List String} {n : String} (h : n ∉ completed) :
    completed.length < (insertName completed n).length := by
  unfold insertName
  rw [if_neg h]
  simp

theorem schedPass_mem {spec : List TDV} {completed : List String} {t : TDV}
    (h : t ∈ schedPass spec completed) :
    t ∈ spec ∧ t.name ∉ completed ∧ ∀ d ∈ t.reqTDV, d ∈ completed := by
  have hm := List.mem_filter.mp h
  refine ⟨hm.1, ?_, ?_⟩
  · have hb := hm.2
    simp only [Bool.and_eq_true, Bool.not_eq_true', decide_eq_false_iff_not] at hb
    exact hb.1
  · have hb := hm.2
    simp only [Bool.and_eq_true, List.all_eq_true, decide_eq_true_eq] at hb
    exact hb.2

theorem foldl_completed_mono (ctx : SchedCtx) :
    ∀ (batch : List TDV) (st : List String × List (String × Arr) × List (String × EvalArgs)),
      st.1.length ≤ (batch.foldl (schedStep ctx) st).1.length := by
  intro batch
  induction batch with
  | nil => intro st; exact Nat.le_refl _
  | cons t ts ih =>
    intro st
    calc st.1.length ≤ (schedStep ctx st t).1.length := insertName_length_ge
    _ ≤ _ := ih (schedStep ctx st t)

theorem foldl_completed_facts (ctx : SchedCtx) (names : List String) :
    ∀ (batch : List TDV) (st : List String × List (String × Arr) × List (String × EvalArgs)),
      (∀ t ∈ batch, t.name ∈ names) →
      st.1.Nodup → st.1 ⊆ names →
      ((batch.foldl (schedStep ctx) st).1.Nodup ∧
        (batch.foldl (schedStep ctx) st).1 ⊆ names) := by
  intro batch
  induction batch with
  | nil => intro st _ hnd hsub; exact ⟨hnd, hsub⟩
  | cons t ts ih =>
    intro st hb hnd hsub
    apply ih (schedStep ctx st t)
    · intro u hu
      exact hb u (List.mem_cons_of_mem _ hu)
    · exact insertName_nodup hnd
    · intro x hx
      rcases insertName_mem.mp hx with hx | rfl
      · exact hsub hx
      · exact hb t (List.mem_cons_self _ _)

theorem mem_of_length_ge {names completed : List String}
    (hnames : names.Nodup) (hnd : completed.Nodup) (hsub : completed ⊆ names)
    (hlen : names.length ≤ completed.length) :
    ∀ n ∈ names, n ∈ completed := by
  have hsubF : completed.toFinset ⊆ names.toFinset := by
    intro x hx
    rw [List.mem_toFinset] at hx ⊢
    exact hsub hx
  have hcard : names.toFinset.card ≤ completed.toFinset.card := by
    rw [List.toFinset_card_of_nodup hnames, List.toFinset_card_of_nodup hnd]
    exact hlen
  have heq := Finset.eq_of_subset_of_card_le hsubF hcard
  intro n hn
  have hnF : n ∈ completed.toFinset := by
    rw [heq, List.mem_toFinset]
    exact hn
  rwa [List.mem_toFinset] at hnF

theorem schedPass_progress {spec : List TDV} {completed : List String} (rank : String → Nat)
    (h1 : (spec.map TDV.name).Nodup)
    (h2 : ∀ t ∈ spec, ∀ d ∈ t.reqTDV, d ∈ spec.map TDV.name)
    (h3 : ∀ t ∈ spec, ∀ d ∈ t.reqTDV, rank d < rank t.name)
    (hnd : completed.Nodup) (_hsub : completed ⊆ spec.map TDV.name)
    (hlt : completed.length < spec.length) :
    (schedPass spec completed).isEmpty = false := by
  have hne : (spec.map TDV.name).toFinset \ completed.toFinset ≠ ∅ := by
    intro hempty
    have hsubF : (spec.map TDV.name).toFinset ⊆ completed.toFinset :=
      Finset.sdiff_eq_empty_iff_subset.mp hempty
    have hcard := Finset.card_le_card hsubF
    rw [List.toFinset_card_of_nodup h1, List.toFinset_card_of_nodup hnd,
      List.length_map] at hcard
    exact absurd (Nat.lt_of_lt_of_le hlt hcard) (Nat.lt_irrefl _)
  obtain ⟨n0, hn0, hmin⟩ := Finset.exists_min_image _ rank
    (Finset.nonempty_iff_ne_empty.mpr hne)
  rw [Finset.mem_sdiff, List.mem_toFinset, List.mem_toFinset] at hn0
  obtain ⟨hn0names, hn0nc⟩ := hn0
  obtain ⟨t0, ht0, ht0name⟩ := List.mem_map.mp hn0names
  have hdeps : ∀ d ∈ t0.reqTDV, d ∈ completed := by
    intro d hd
    by_contra hdc
    have hdnames : d ∈ spec.map TDV.name := h2 t0 ht0 d hd
    have hdun : d ∈ (spec.map TDV.name).toFinset \ completed.toFinset := by
      rw [Finset.mem_sdiff, List.mem_toFinset, List.mem_toFinset]
      exact ⟨hdnames, hdc⟩
    have hrle := hmin d hdun
    have hrlt : rank d < rank n0 := by
      rw [← ht0name]
      exact h3 t0 ht0 d hd
    exact absurd (Nat.lt_of_le_of_lt hrle hrlt) (Nat.lt_irrefl _)
  have ht0mem : t0 ∈ schedPass spec completed := by
    apply List.mem_filter.mpr
    refine ⟨ht0, ?_⟩
    have hnotc : t0.name ∉ completed := ht0name ▸ hn0nc
    simp only [Bool.and_eq_true, Bool.not_eq_true', decide_eq_false_iff_not,
      List.all_eq_true, decide_eq_true_eq]
    exact ⟨hnotc, hdeps⟩
  exact isEmpty_false_of_mem ht0mem

theorem schedLoop_total (ctx : SchedCtx) (spec : List TDV) (rank : String → Nat)
    (h1 : (spec.map TDV.name).Nodup)
    (h2 : ∀ t ∈ spec, ∀ d ∈ t.reqTDV, d ∈ spec.map TDV.name)
    (h3 : ∀ t ∈ spec, ∀ d ∈ t.reqTDV, rank d < rank t.name) :
    ∀ (fuel : Nat) (completed : List String) (fields : List (String × Arr))
      (trace : List (String × EvalArgs)),
      completed.Nodup → completed ⊆ spec.map TDV.name →
      spec.length < fuel + completed.length →
      ∃ out, schedLoop ctx spec fuel completed fields trace = some out := by
  intro fuel
  induction fuel with
  | zero =>
    intro completed fields trace hnd hsub hlt
    simp only [schedLoop]
    rw [if_neg (by omega)]
    exact ⟨_, rfl⟩
  | succ fuel ih =>
    intro completed fields trace hnd hsub hlt
    simp only [schedLoop]
    by_cases hg : completed.length < spec.length
    · rw [if_pos hg]
      have hprog := schedPass_progress rank h1 h2 h3 hnd hsub hg
      rw [if_neg (by simp [hprog])]
      have hex : ∃ t ts, schedPass spec completed = t :: ts := by
        rcases hb2 : schedPass spec completed with _ | ⟨t, ts⟩
        · rw [hb2] at hprog
          cases hprog
        · exact ⟨t, ts, rfl⟩
      obtain ⟨t, ts, hbatch⟩ := hex
      have hbmem : ∀ u ∈ schedPass spec completed, u.name ∈ spec.map TDV.name := by
        intro u hu
        exact List.mem_map_of_mem _ (schedPass_mem hu).1
      have hfacts := foldl_completed_facts ctx (spec.map TDV.name)
        (schedPass spec completed) (completed, fields, trace) hbmem hnd hsub
      have ht : t ∈ schedPass spec completed := by
        rw [hbatch]
        exact List.mem_cons_self _ _
      have hgrow : completed.length <
          ((schedPass spec completed).foldl (schedStep ctx) (completed, fields, trace)).1.length := by
        rw [hbatch]
        calc completed.length < (schedStep ctx (completed, fields, trace) t).1.length :=
          insertName_length_lt (schedPass_mem ht).2.1
        _ ≤ _ := foldl_completed_mono ctx ts _
      exact ih _ _ _ hfacts.1 hfacts.2 (by omega)
    · rw [if_neg hg]
      exact ⟨_, rfl⟩

/-- C2 amended: the scheduler loop of evalSolutionGibbs terminates whenever
the closure has pairwise-distinct names, dependencies closed inside the
closure, and an acyclic dependency graph (witnessed by a rank function), as
the Registry invariant guarantees; but when a pass finds no eligible
variable while the completed set is still incomplete, the loop repeats the
identical state forever — modelled as the result `none` / `diverge` — and
no dependency-cycle error is ever raised (the source has no such check). -/
theorem scheduler_terminates_of_acyclic (E : Spline → List (List ℚ) → List Nat → Arr)
    (dreg : List DerivSpec) (sp : Spline) (ptm : PTMInput) (spec : List TDV)
    (MWv MWu : Option ℚ) (foe : Bool) (rank : String → Nat)
    (h1 : (spec.map TDV.name).Nodup)
    (h2 : ∀ t ∈ spec, ∀ d ∈ t.reqTDV, d ∈ spec.map TDV.name)
    (h3 : ∀ t ∈ spec, ∀ d ∈ t.reqTDV, rank d < rank t.name) :
    evalSolutionGibbs E dreg sp ptm spec MWv MWu foe ≠ .diverge ∧
    ∀ (ctx : SchedCtx) (fuel : Nat) (completed : List String)
      (fields : List (String × Arr)) (trace : List (String × EvalArgs)),
      (schedPass spec completed).isEmpty = true → completed.length < spec.length →
      schedLoop ctx spec fuel completed fields trace = none := by
  constructor
  · simp only [evalSolutionGibbs]
    rcases hc : _checkInputs sp sp.number.length spec ptm MWv MWu foe with e | u
    · simp
    · cases u
      obtain ⟨out, hout⟩ := schedLoop_total
        (evalCtx E dreg sp spec MWv MWu (_wrapPTM ptm sp.number.length spec).1) spec rank
        h1 h2 h3 (spec.length + 1) [] [] [] List.nodup_nil (List.nil_subset _) (by omega)
      rw [hout]
      rcases out with ⟨fields, trace⟩
      simp
  · intro ctx fuel completed fields trace hempty hlt
    cases fuel with
    | zero =>
      simp only [schedLoop]
      rw [if_pos hlt]
    | succ fuel =>
      simp only [schedLoop]
      rw [if_pos hlt, if_pos hempty]

/-- Witness for the amended C2 on a concrete acyclic one-variable closure. -/
theorem scheduler_terminates_of_acyclic_witness :
    evalSolutionGibbs E0 [] spPT ptm2 [tdvPlain] none none true ≠ .diverge :=
  (scheduler_terminates_of_acyclic E0 [] spPT ptm2 [tdvPlain] none none true
    (fun _ => 0) (by decide) (by decide) (by decide)).1

theorem buildEvalArgs_audit (t : TDV) (derivs : List (String × Arr)) (ptm : List (List ℚ))
    (gPTM : Option (List Arr)) (MWv MWu : Option ℚ) (tdvout : List (String × Arr))
    (gibbsSp : Spline) (f : Option (List ℚ)) :
    presenceAudit t (_buildEvalArgs t derivs ptm gPTM MWv MWu tdvout gibbsSp f) := by
  unfold presenceAudit _buildEvalArgs
  refine ⟨?_, ?_, ?_, ?_, ?_, ?_, ?_, ?_⟩
  · cases hb : t.reqDerivs.isEmpty <;> simp [hb]
  · cases hb : t.reqGrid <;> simp [hb]
  · cases hb : t.reqMWv <;> simp [hb]
  · cases hb : t.reqMWu <;> simp [hb]
  · cases hb : t.reqTDV.isEmpty <;> simp [hb]
  · cases hb : t.reqSpline <;> simp [hb]
  · cases hb : t.reqPTM <;> simp [hb]
  · cases hb : t.reqF <;> simp [hb]

theorem foldl_trace_inv (ctx : SchedCtx) (spec : List TDV) :
    ∀ (batch : List TDV) (st : List String × List (String × Arr) × List (String × EvalArgs)),
      (∀ t ∈ batch, t ∈ spec) →
      (∀ t ∈ batch, t.name ∉ st.1) →
      (batch.map TDV.name).Nodup →
      st.1.Nodup → st.1 ⊆ spec.map TDV.name →
      (∀ n, (st.2.2.map Prod.fst).count n = if n ∈ st.1 then 1 else 0) →
      (∀ e ∈ st.2.2, ∃ t ∈ spec, t.name = e.1 ∧ presenceAudit t e.2) →
      ((batch.foldl (schedStep ctx) st).1.Nodup ∧
        (batch.foldl (schedStep ctx) st).1 ⊆ spec.map TDV.name ∧
        (∀ n, ((batch.foldl (schedStep ctx) st).2.2.map Prod.fst).count n =
          if n ∈ (batch.foldl (schedStep ctx) st).1 then 1 else 0) ∧
        (∀ e ∈ (batch.foldl (schedStep ctx) st).2.2,
          ∃ t ∈ spec, t.name = e.1 ∧ presenceAudit t e.2)) := by
  intro batch
  induction batch with
  | nil =>
    intro st _ _ _ hnd hsub hcount haud
    exact ⟨hnd, hsub, hcount, haud⟩
  | cons t ts ih =>
    intro st hspec hnotin hbnd hnd hsub hcount haud
    have htname : t.name ∉ st.1 := hnotin t (List.mem_cons_self _ _)
    have hbnd2 := List.nodup_cons.mp hbnd
    apply ih (schedStep ctx st t)
    · intro u hu
      exact hspec u (List.mem_cons_of_mem _ hu)
    · intro u hu
      intro hmem
      rcases insertName_mem.mp hmem with hmem | hmem
      · exact hnotin u (List.mem_cons_of_mem _ hu) hmem
      · exact hbnd2.1 (hmem ▸ List.mem_map_of_mem TDV.name hu)
    · exact hbnd2.2
    · exact insertName_nodup hnd
    · intro x hx
      rcases insertName_mem.mp hx with hx | rfl
      · exact hsub hx
      · exact List.mem_map_of_mem _ (hspec t (List.mem_cons_self _ _))
    · intro n
      show ((st.2.2 ++ [(t.name, _)]).map Prod.fst).count n =
        if n ∈ insertName st.1 t.name then 1 else 0
      rw [List.map_append, List.count_append]
      by_cases hn : n = t.name
      · have h0 : (List.map Prod.fst st.2.2).count n = 0 := by
          rw [hcount n, if_neg (by rw [hn]; exact htname)]
        rw [h0, if_pos (insertName_mem.mpr (Or.inr hn))]
        simp [List.count_cons, hn]
      · have hiff : n ∈ insertName st.1 t.name ↔ n ∈ st.1 := by
          rw [insertName_mem]
          exact ⟨fun h => h.elim id (fun he => absurd he hn), Or.inl⟩
        rw [hcount n]
        by_cases hcm : n ∈ st.1
        · rw [if_pos hcm, if_pos (hiff.mpr hcm)]
          simp [List.count_cons, hn]
        · rw [if_neg hcm, if_neg (fun h => hcm (hiff.mp h))]
          simp [List.count_cons, hn]
    · intro e he
      rcases List.mem_append.mp he with he | he
      · exact haud e he
      · have : e = (t.name, _buildEvalArgs t ctx.derivs ctx.wrapped ctx.gPTM ctx.MWv ctx.MWu
            st.2.1 ctx.spline ctx.f) := List.mem_singleton.mp he
        rw [this]
        exact ⟨t, hspec t (List.mem_cons_self _ _), rfl, buildEvalArgs_audit t _ _ _ _ _ _ _ _⟩

theorem schedLoop_trace_inv (ctx : SchedCtx) (spec : List TDV)
    (h1 : (spec.map TDV.name).Nodup) :
    ∀ (fuel : Nat) (completed : List String) (fields : List (String × Arr))
      (trace : List (String × EvalArgs))
      (out : (List (String × Arr)) × List (String × EvalArgs)),
      completed.Nodup → completed ⊆ spec.map TDV.name →
      (∀ n, (trace.map Prod.fst).count n = if n ∈ completed then 1 else 0) →
      (∀ e ∈ trace, ∃ t ∈ spec, t.name = e.1 ∧ presenceAudit t e.2) →
      schedLoop ctx spec fuel completed fields trace = some out →
      (∀ n ∈ spec.map TDV.name, (out.2.map Prod.fst).count n = 1) ∧
      (∀ e ∈ out.2, ∃ t ∈ spec, t.name = e.1 ∧ presenceAudit t e.2) := by
  intro fuel
  induction fuel with
  | zero =>
    intro completed fields trace out hnd hsub hcount haud hsl
    simp only [schedLoop] at hsl
    by_cases hg : completed.length < spec.length
    · rw [if_pos hg] at hsl
      cases hsl
    · rw [if_neg hg] at hsl
      injection hsl with h
      rw [← h]
      have hall := mem_of_length_ge h1 hnd hsub
        (by rw [List.length_map]; omega)
      exact ⟨fun n hn => by rw [hcount n, if_pos (hall n hn)], haud⟩
  | succ fuel ih =>
    intro completed fields trace out hnd hsub hcount haud hsl
    simp only [schedLoop] at hsl
    by_cases hg : completed.length < spec.length
    · rw [if_pos hg] at hsl
      by_cases hb : (schedPass spec completed).isEmpty = true
      · rw [if_pos hb] at hsl
        cases hsl
      · rw [if_neg hb] at hsl
        have hbnd : ((schedPass spec completed).map TDV.name).Nodup := by
          refine List.Nodup.sublist ?_ h1
          exact List.Sublist.map TDV.name (List.filter_sublist _)
        have hinv := foldl_trace_inv ctx spec (schedPass spec completed)
          (completed, fields, trace)
          (fun u hu => (schedPass_mem hu).1)
          (fun u hu => (schedPass_mem hu).2.1)
          hbnd hnd hsub hcount haud
        exact ih _ _ _ _ hinv.1 hinv.2.1 hinv.2.2.1 hinv.2.2.2 hsl
    · rw [if_neg hg] at hsl
      injection hsl with h
      rw [← h]
      have hall := mem_of_length_ge h1 hnd hsub
        (by rw [List.length_map]; omega)
      exact ⟨fun n hn => by rw [hcount n, if_pos (hall n hn)], haud⟩

/-- C5: on a successful run with pairwise-distinct closure names, every
variable name in the closure is computed exactly once (the scheduler trace
contains each closure name with multiplicity one, never recomputing a
variable in a later pass), and the argument set passed to each variable's
computation function contains exactly the resource slots its descriptor
flags declare. -/
theorem evalGibbs_once_and_args_audit (E : Spline → List (List ℚ) → List Nat → Arr)
    (dreg : List DerivSpec) (sp : Spline) (ptm : PTMInput) (spec : List TDV)
    (MWv MWu : Option ℚ) (foe : Bool) (flds : List (String × Arr)) (po cp : PTMInput)
    (tr : List (String × EvalArgs))
    (h1 : (spec.map TDV.name).Nodup)
    (hok : evalSolutionGibbs E dreg sp ptm spec MWv MWu foe = .ok flds po cp tr) :
    (∀ n ∈ spec.map TDV.name, (tr.map Prod.fst).count n = 1) ∧
    (∀ e ∈ tr, ∀ t ∈ spec, t.name = e.1 → presenceAudit t e.2) := by
  obtain ⟨hc, hp, hcp, fields, hs, hf⟩ := evalGibbs_ok_inv hok
  have hinv := schedLoop_trace_inv _ spec h1 (spec.length + 1) [] [] [] (fields, tr)
    List.nodup_nil (List.nil_subset _) (by intro n; simp) (by intro e he; cases he) hs
  refine ⟨hinv.1, ?_⟩
  intro e he t ht hname
  obtain ⟨t', ht', hname', haud⟩ := hinv.2 e he
  have heq : t = t' := by
    have hinj := List.inj_on_of_nodup_map h1
    exact hinj ht ht' (by rw [hname, hname'])
  rw [heq]
  exact haud

/-- Witness for C5: a concrete successful run whose trace computes the
single closure variable once, with an empty argument set matching its
all-false flags. -/
theorem evalGibbs_once_and_args_audit_witness :
    evalSolutionGibbs E0 [] spPT ptm2 [tdvPlain] none none true =
      .ok [("x", Arr.scal 7)] ptm2 ptm2 [("x", noneArgs)] ∧
    ([("x", noneArgs)].map Prod.fst).count "x" = 1 ∧
    presenceAudit tdvPlain noneArgs :=
  ⟨rfl,
   (evalGibbs_once_and_args_audit E0 [] spPT ptm2 [tdvPlain] none none true
     [("x", Arr.scal 7)] ptm2 ptm2 [("x", noneArgs)] (by decide) rfl).1 "x"
     (by simp [tdvPlain]),
   (evalGibbs_once_and_args_audit E0 [] spPT ptm2 [tdvPlain] none none true
     [("x", Arr.scal 7)] ptm2 ptm2 [("x", noneArgs)] (by decide) rfl).2
     ("x", noneArgs) (List.mem_singleton.mpr rfl) tdvPlain (List.mem_singleton.mpr rfl) rfl⟩

/-- C2 counterexample: on a cyclic spec the scheduler pass selects no
variable while the completed set is empty and incomplete, and the call
diverges (models the source's infinite while loop) instead of failing with
a dependency-cycle error: no error outcome is produced. -/
theorem evalGibbs_cycle_diverges :
    evalSolutionGibbs E0 [] spPT ptm2 cyclicSpec none none true = .diverge ∧
    (schedPass cyclicSpec []).isEmpty = true ∧
    cyclicSpec.length = 2 :=
  ⟨rfl, rfl, rfl⟩

end LBFTD
